import Mathlib

/-!
Shallow embedding of `src/main.rs` from the Diamond-Square repository.

The core under verification is the function `generate_map`, which seeds the
four corners of an `image_size × image_size` heightmap from a coordinate
hash, refines the grid by alternating square/diamond passes while halving
the chunk size and the roughness, and finally squashes, quantizes, bands
and packs every elevation into RGBA bytes.

Modelling conventions:
* `f32` values are modelled as exact rationals (`ℚ`); the structure of the
  computation (which cells are read and written, which neighbors enter an
  average, which band a squashed value selects) is independent of rounding.
* The mutable `Vec<Vec<f32>>` heightmap is modelled as a total function
  `ℕ → ℕ → ℚ` together with pointwise functional update; the loops become
  left folds over the exact index lists that Rust's `step_by` ranges
  produce.
* `std::hash::DefaultHasher` is a library primitive outside this
  repository; its 64-bit digest after hashing `(seed, x, y)` is kept as an
  explicit function parameter `digest`.  Everything the repository itself
  computes from the digest (`% 0xFF`, `/ 255.0`) is embedded concretely.
* The logistic squash `1 / (1 + e^(-f))` applies the transcendental
  constant `e`; its output is kept as an explicit function parameter
  `squash` feeding the (fully embedded) quantize/band/pack stage, which in
  the source receives the squashed value as its input.
* Rust's saturating `as i32` cast and truncating `i32` division are
  embedded exactly (`f32ToI32`, `Int.tdiv`); the `<< 16 | << 8 | ·` packing
  of disjoint byte fields and the `(>> sh) & 0xFF` extraction are embedded
  as the equivalent arithmetic on `ℤ` (exact for the nonnegative in-range
  channel values involved).
* Rust's `Vec` indexing panics on an out-of-bounds access, and the
  total-function grid does not model that panic path.  Every theorem about
  whole-program output is therefore scoped to image sizes at which all of
  `generate_map`'s accesses stay in bounds — the whole family
  `image_size = 2^k + 1` and the individually traced sizes 4 and 5 — where
  the model is exact; at sizes such as 0 or 6 the real program panics
  instead of producing a buffer.
-/

namespace DiamondSquare

/-- A heightmap: total function from a pair of indices to an elevation.
Models the `Vec<Vec<f32>>` grid `heightmap[x][y]`. -/
abbrev Grid := ℕ → ℕ → ℚ

/-- Pointwise update `heightmap[i][j] = v`. -/
def upd (g : Grid) (i j : ℕ) (v : ℚ) : Grid :=
  fun a b => if a = i ∧ b = j then v else g a b

/-- The repository's coordinate hash closure: feed `seed`, `x`, `y` to a
`DefaultHasher`, take the 64-bit digest (`digest`, kept abstract: it is a
`std` primitive, not repository code), reduce it `% 0xFF` and divide by
`0xFF`:  `(hasher.finish() % 0xFF) as f32 / 0xFF as f32`. -/
def hashFrac (digest : ℤ → ℤ → ℤ → ℕ) (seed x y : ℤ) : ℚ :=
  ((digest seed x y % 0xFF : ℕ) : ℚ) / (0xFF : ℚ)

/-- Index list of Rust's `(0..m).step_by(s)`: the multiples of `s` below
`m`, in increasing order. -/
def stepRange (m s : ℕ) : List ℕ :=
  List.range' 0 ((m + s - 1) / s) s

/-- Index list of Rust's `(a..m).step_by(s)`: `a, a+s, a+2s, …` below `m`. -/
def stepRangeFrom (a m s : ℕ) : List ℕ :=
  List.range' a ((m - a + s - 1) / s) s

/-- Jitter term of both passes: `(hash(x, y) * 2.0 - 1.0) * roughness`. -/
def jitter (hash2 : ℕ → ℕ → ℚ) (rough : ℚ) (x y : ℕ) : ℚ :=
  (hash2 x y * 2 - 1) * rough

/-- Average of the four chunk corners read in the square step:
`(top_left + top_right + bottom_left + bottom_right) / 4.0`. -/
def sqAvg (g : Grid) (chunk x y : ℕ) : ℚ :=
  (g x y + g (x + chunk) y + g x (y + chunk) + g (x + chunk) (y + chunk)) / 4

/-- One iteration of the square step at chunk top-left `(x, y)`: write the
four-corner average into the center `(x + half, y + half)`, then add the
jitter to the top-left cell `(x, y)` itself. -/
def sqIter (hash2 : ℕ → ℕ → ℚ) (rough : ℚ) (chunk half y : ℕ) (g : Grid) (x : ℕ) : Grid :=
  let g1 := upd g (x + half) (y + half) (sqAvg g chunk x y)
  upd g1 x y (g1 x y + jitter hash2 rough x y)

/-- The square pass: `for y in (0..image_size-1).step_by(chunk_size)`,
`for x in (0..image_size-1).step_by(chunk_size)`, run `sqIter`. -/
def squarePass (hash2 : ℕ → ℕ → ℚ) (rough : ℚ) (size chunk half : ℕ) (g : Grid) : Grid :=
  (stepRange (size - 1) chunk).foldl
    (fun g y => (stepRange (size - 1) chunk).foldl (sqIter hash2 rough chunk half y) g) g

/-- Number of neighbors accepted by the diamond step's four guards
`x > half`, `y > half`, `x + half < image_size - 1`,
`y + half < image_size - 1`. -/
def dmCount (size half x y : ℕ) : ℕ :=
  (if half < x then 1 else 0) + (if half < y then 1 else 0) +
    (if x + half < size - 1 then 1 else 0) + (if y + half < size - 1 then 1 else 0)

/-- Sum of the neighbor elevations accepted by the diamond step's guards,
accumulated in source order (left, up, right, down). -/
def dmSum (g : Grid) (size half x y : ℕ) : ℚ :=
  (if half < x then g (x - half) y else 0) + (if half < y then g x (y - half) else 0) +
    (if x + half < size - 1 then g (x + half) y else 0) +
    (if y + half < size - 1 then g x (y + half) else 0)

/-- One iteration of the diamond step at `(x, y)`: write
`neighbor_sum / neighbors as f32`, then add the jitter to the same cell. -/
def dmIter (hash2 : ℕ → ℕ → ℚ) (rough : ℚ) (size half y : ℕ) (g : Grid) (x : ℕ) : Grid :=
  let g1 := upd g x y (dmSum g size half x y / (dmCount size half x y : ℚ))
  upd g1 x y (g1 x y + jitter hash2 rough x y)

/-- The diamond pass: `for y in (0..image_size).step_by(half)`,
`for x in ((y + half) % chunk_size..image_size).step_by(chunk_size)`,
run `dmIter`. -/
def diamondPass (hash2 : ℕ → ℕ → ℚ) (rough : ℚ) (size chunk half : ℕ) (g : Grid) : Grid :=
  (stepRange size half).foldl
    (fun g y =>
      (stepRangeFrom ((y + half) % chunk) size chunk).foldl
        (dmIter hash2 rough size half y) g) g

/-- The refinement loop `while chunk_size > 1`: square pass, diamond pass,
then halve `chunk_size` (integer division) and halve `roughness`. -/
def refineLoop (hash2 : ℕ → ℕ → ℚ) (size chunk : ℕ) (rough : ℚ) (g : Grid) : Grid :=
  if 1 < chunk then
    refineLoop hash2 size (chunk / 2) (rough / 2)
      (diamondPass hash2 rough size chunk (chunk / 2)
        (squarePass hash2 rough size chunk (chunk / 2) g))
  else g
termination_by chunk
decreasing_by omega

/-- Corner seeding on the zero-filled grid, in source order:
`heightmap[0][0] = hash(px, py)`, `heightmap[0][image_size-1] = hash(px, py+1)`,
`heightmap[image_size-1][0] = hash(px+1, py)`,
`heightmap[image_size-1][image_size-1] = hash(px+1, py+1)`. -/
def seedCorners (hash : ℤ → ℤ → ℚ) (px py : ℤ) (size : ℕ) : Grid :=
  upd
    (upd
      (upd
        (upd (fun _ _ => 0) 0 0 (hash px py))
        0 (size - 1) (hash px (py + 1)))
      (size - 1) 0 (hash (px + 1) py))
    (size - 1) (size - 1) (hash (px + 1) (py + 1))

/-- Rust truncation toward zero of a rational, as in a float-to-int cast. -/
def ratTrunc (q : ℚ) : ℤ :=
  if q < 0 then ⌈q⌉ else ⌊q⌋

/-- Rust's saturating `as i32` cast of an `f32` value. -/
def f32ToI32 (q : ℚ) : ℤ :=
  max (-(2 ^ 31)) (min (2 ^ 31 - 1) (ratTrunc q))

/-- Quantization `let value = (f * 0xFF as f32) as i32`. -/
def quantize (f : ℚ) : ℤ :=
  f32ToI32 (f * 0xFF)

/-- Banding on the squashed fraction `f`, packing the red, green and blue
channels into the byte fields of one integer exactly as the source's
`match` does with `<< 16 | << 8 | ·` (the fields are disjoint bytes, so
the bitwise-or packing is the arithmetic sum); `value / 2` is `i32`
division, i.e. truncation. -/
def colorize (f : ℚ) : ℤ :=
  let value := quantize f
  if f < 0.2 then value
  else if f < 0.65 then value * 2 ^ 8
  else if f < 0.9 then
    Int.tdiv value 2 * 2 ^ 16 + Int.tdiv value 2 * 2 ^ 8 + Int.tdiv value 2
  else value * 2 ^ 16 + value * 2 ^ 8 + value

/-- Channel extraction `((c >> sh) & 0xFF) as u8`, as arithmetic on the
nonnegative packed value. -/
def channel (c : ℤ) (sh : ℕ) : ℕ :=
  ((c / 2 ^ sh) % 0x100).toNat

/-- One pixel `[r, g, b, 0xFF]` from a packed color. -/
def toBytes (c : ℤ) : List ℕ :=
  [channel c 16, channel c 8, channel c 0, 0xFF]

/-- The output stage: flatten the heightmap in storage order (outer index
first), squash each elevation, colorize, pack each cell to four bytes and
flatten. -/
def generatePixels (squash : ℚ → ℚ) (size : ℕ) (g : Grid) : List ℕ :=
  (((((List.range size).map (fun x => (List.range size).map (fun y => g x y))).flatten.map
    squash).map colorize).map toBytes).flatten

/-- The whole of `generate_map`: allocate a zero grid, seed the corners
from the tile position, run the refinement loop starting at
`chunk_size = image_size - 1`, then produce the byte buffer.  `digest` is
the `DefaultHasher` 64-bit digest and `squash` the logistic squash, both
library primitives kept as parameters. -/
def generate_map (digest : ℤ → ℤ → ℤ → ℕ) (squash : ℚ → ℚ) (position : ℤ × ℤ)
    (roughness : ℚ) (seed : ℤ) (image_size : ℕ) : List ℕ :=
  generatePixels squash image_size
    (refineLoop (fun x y => hashFrac digest seed (x : ℤ) (y : ℤ)) image_size
      (image_size - 1) roughness
      (seedCorners (hashFrac digest seed) position.1 position.2 image_size))

/-- Trace of the refinement loop's control state: the list of
`(chunk_size, roughness)` pairs for which the loop body runs, mirroring
the recursion of `refineLoop`. -/
def loopTrace (chunk : ℕ) (rough : ℚ) : List (ℕ × ℚ) :=
  if 1 < chunk then (chunk, rough) :: loopTrace (chunk / 2) (rough / 2) else []
termination_by chunk
decreasing_by omega

/-- Jitter added to the cell `[0][0]` across the refinement levels: the
top-left chunk corner is `(0, 0)` at every level, so each level adds
`(hash(0, 0) * 2 - 1) * roughness` with the current roughness; the
recursion mirrors `refineLoop`. -/
def cornerJitterSum (hash2 : ℕ → ℕ → ℚ) (chunk : ℕ) (rough : ℚ) : ℚ :=
  if 1 < chunk then jitter hash2 rough 0 0 + cornerJitterSum hash2 (chunk / 2) (rough / 2)
  else 0
termination_by chunk
decreasing_by omega

/-- Cells written by one square pass, listed from the same index ranges
the pass folds over: the center and the jittered top-left of each chunk. -/
def squareWrites (size chunk half : ℕ) : List (ℕ × ℕ) :=
  (stepRange (size - 1) chunk).flatMap
    (fun y => (stepRange (size - 1) chunk).flatMap
      (fun x => [(x + half, y + half), (x, y)]))

/-- Cells written by one diamond pass, listed from the same index ranges
the pass folds over. -/
def diamondWrites (size chunk half : ℕ) : List (ℕ × ℕ) :=
  (stepRange size half).flatMap
    (fun y => (stepRangeFrom ((y + half) % chunk) size chunk).map (fun x => (x, y)))

/-- Modelled from the spec: the number of cardinal neighbors of `(x, y)` at
distance `half` that lie within the bounds of a `size × size` grid — the
count the spec's diamond-pass description divides by. -/
def specInBoundsCount (size half x y : ℕ) : ℕ :=
  (if half ≤ x then 1 else 0) + (if half ≤ y then 1 else 0) +
    (if x + half ≤ size - 1 then 1 else 0) + (if y + half ≤ size - 1 then 1 else 0)

/-- Modelled from the spec: quantization as the spec words it, `round(p × 255)`
clamped into `[0, 255]`. -/
def specQuantize (p : ℚ) : ℤ :=
  max 0 (min 255 (round (p * 255)))

/-- Example grid used to exhibit the diamond step's boundary-neighbor
exclusion concretely: elevation 8 at the corner `(0, 0)`, elevation 0
elsewhere. -/
def exGrid : Grid :=
  fun a b => if a = 0 ∧ b = 0 then 8 else 0

/-- Example grid with distinct corner elevations, used as a concrete input
to the square-pass specification. -/
def gW : Grid :=
  fun i j => (i : ℚ) + 2 * (j : ℚ)

theorem upd_self (g : Grid) (i j : ℕ) (v : ℚ) : upd g i j v i j = v := by
  simp [upd]

theorem upd_ne (g : Grid) (i j : ℕ) (v : ℚ) {a b : ℕ} (h : ¬(a = i ∧ b = j)) :
    upd g i j v a b = g a b := by
  simp [upd, h]

theorem range'_start_le {a n s x : ℕ} (h : x ∈ List.range' a n s) : a ≤ x := by
  rw [List.mem_range'] at h
  obtain ⟨i, _, rfl⟩ := h
  omega

theorem mem_stepRange {m s x : ℕ} (hs : 0 < s) :
    x ∈ stepRange m s ↔ s ∣ x ∧ x < m := by
  rw [stepRange, List.mem_range']
  constructor
  · rintro ⟨i, hi, rfl⟩
    have h1 : (i + 1) * s ≤ m + s - 1 := (Nat.le_div_iff_mul_le hs).mp hi
    have h3 : (i + 1) * s = s * i + s := by ring
    exact ⟨⟨i, by omega⟩, by omega⟩
  · rintro ⟨⟨c, rfl⟩, hlt⟩
    refine ⟨c, ?_, by ring⟩
    rw [Nat.lt_iff_add_one_le, Nat.le_div_iff_mul_le hs]
    have h3 : (c + 1) * s = s * c + s := by ring
    omega

theorem mem_stepRangeFrom {a m s x : ℕ} (hs : 0 < s) :
    x ∈ stepRangeFrom a m s ↔ a ≤ x ∧ s ∣ (x - a) ∧ x < m := by
  rw [stepRangeFrom, List.mem_range']
  constructor
  · rintro ⟨i, hi, rfl⟩
    have h1 : (i + 1) * s ≤ m - a + s - 1 := (Nat.le_div_iff_mul_le hs).mp hi
    have h3 : (i + 1) * s = s * i + s := by ring
    exact ⟨by omega, ⟨i, by omega⟩, by omega⟩
  · rintro ⟨hax, ⟨c, hc⟩, hlt⟩
    refine ⟨c, ?_, by omega⟩
    rw [Nat.lt_iff_add_one_le, Nat.le_div_iff_mul_le hs]
    have h3 : (c + 1) * s = s * c + s := by ring
    omega

theorem dm_row_mod {y half chunk size x : ℕ} (hc : 0 < chunk)
    (h : x ∈ stepRangeFrom ((y + half) % chunk) size chunk) :
    x % chunk = (y + half) % chunk := by
  rw [mem_stepRangeFrom hc] at h
  obtain ⟨hax, ⟨c, hc'⟩, _⟩ := h
  have hx : x = (y + half) % chunk + chunk * c := by omega
  rw [hx, Nat.add_mul_mod_self_left, Nat.mod_mod_of_dvd]
  exact dvd_refl chunk

theorem sqIter_at_center {hash2 : ℕ → ℕ → ℚ} {r : ℚ} {chunk half y x : ℕ} {g : Grid}
    (hh : 0 < half) :
    sqIter hash2 r chunk half y g x (x + half) (y + half) = sqAvg g chunk x y := by
  unfold sqIter
  rw [upd_ne _ _ _ _ (by omega), upd_self]

theorem sqIter_at_tl {hash2 : ℕ → ℕ → ℚ} {r : ℚ} {chunk half y x : ℕ} {g : Grid}
    (hh : 0 < half) :
    sqIter hash2 r chunk half y g x x y = g x y + jitter hash2 r x y := by
  unfold sqIter
  rw [upd_self, upd_ne _ _ _ _ (by omega)]

theorem sqIter_other {hash2 : ℕ → ℕ → ℚ} {r : ℚ} {chunk half y x : ℕ} {g : Grid}
    {p q : ℕ} (h1 : ¬(p = x + half ∧ q = y + half)) (h2 : ¬(p = x ∧ q = y)) :
    sqIter hash2 r chunk half y g x p q = g p q := by
  unfold sqIter
  rw [upd_ne _ _ _ _ h2, upd_ne _ _ _ _ h1]

theorem sqRow_frame {hash2 : ℕ → ℕ → ℚ} {r : ℚ} {chunk half y : ℕ} {p q : ℕ} :
    ∀ (l : List ℕ) (g : Grid),
      (∀ x ∈ l, ¬(p = x + half ∧ q = y + half) ∧ ¬(p = x ∧ q = y)) →
      (l.foldl (sqIter hash2 r chunk half y) g) p q = g p q := by
  intro l
  induction l with
  | nil => intro g _; rfl
  | cons x tl ih =>
    intro g hcond
    rw [List.foldl_cons, ih _ (fun x' hx' => hcond x' (List.mem_cons_of_mem _ hx'))]
    exact sqIter_other (hcond x (List.mem_cons_self x tl)).1 (hcond x (List.mem_cons_self x tl)).2

theorem sqRow_spec {hash2 : ℕ → ℕ → ℚ} {r : ℚ} {chunk half y x₀ : ℕ}
    (hch : chunk = 2 * half) (hh : 0 < half) :
    ∀ (n a : ℕ) (g : Grid), x₀ ∈ List.range' a n chunk →
      ((List.range' a n chunk).foldl (sqIter hash2 r chunk half y) g) (x₀ + half) (y + half)
          = sqAvg g chunk x₀ y
        ∧ ((List.range' a n chunk).foldl (sqIter hash2 r chunk half y) g) x₀ y
          = g x₀ y + jitter hash2 r x₀ y := by
  intro n
  induction n with
  | zero => intro a g hmem; simp [List.range'] at hmem
  | succ n ih =>
    intro a g hmem
    rw [List.range'_succ] at hmem ⊢
    rw [List.foldl_cons]
    rcases List.mem_cons.mp hmem with rfl | htl
    · constructor
      · rw [sqRow_frame _ _ ?_, sqIter_at_center hh]
        intro x' hx'
        have hge : x₀ + chunk ≤ x' := range'_start_le hx'
        exact ⟨by omega, by omega⟩
      · rw [sqRow_frame _ _ ?_, sqIter_at_tl hh]
        intro x' hx'
        have hge : x₀ + chunk ≤ x' := range'_start_le hx'
        exact ⟨by omega, by omega⟩
    · have hge : a + chunk ≤ x₀ := range'_start_le htl
      obtain ⟨h1, h2⟩ := ih (a + chunk) (sqIter hash2 r chunk half y g a) htl
      have e1 : sqIter hash2 r chunk half y g a x₀ y = g x₀ y :=
        sqIter_other (by omega) (by omega)
      have e2 : sqIter hash2 r chunk half y g a (x₀ + chunk) y = g (x₀ + chunk) y :=
        sqIter_other (by omega) (by omega)
      have e3 : sqIter hash2 r chunk half y g a x₀ (y + chunk) = g x₀ (y + chunk) :=
        sqIter_other (by omega) (by omega)
      have e4 : sqIter hash2 r chunk half y g a (x₀ + chunk) (y + chunk)
          = g (x₀ + chunk) (y + chunk) := sqIter_other (by omega) (by omega)
      constructor
      · rw [h1]
        unfold sqAvg
        rw [e1, e2, e3, e4]
      · rw [h2, e1]

theorem sqPass_frame {hash2 : ℕ → ℕ → ℚ} {r : ℚ} {chunk half : ℕ} {xs : List ℕ} {p q : ℕ} :
    ∀ (ys : List ℕ) (g : Grid),
      (∀ y' ∈ ys, ∀ x' ∈ xs, ¬(p = x' + half ∧ q = y' + half) ∧ ¬(p = x' ∧ q = y')) →
      (ys.foldl (fun g y => xs.foldl (sqIter hash2 r chunk half y) g) g) p q = g p q := by
  intro ys
  induction ys with
  | nil => intro g _; rfl
  | cons y' tl ih =>
    intro g hcond
    rw [List.foldl_cons, ih _ (fun y'' hy'' => hcond y'' (List.mem_cons_of_mem _ hy''))]
    exact sqRow_frame xs g (hcond y' (List.mem_cons_self y' tl))

theorem sqPass_spec {hash2 : ℕ → ℕ → ℚ} {r : ℚ} {chunk half x₀ y₀ M : ℕ}
    (hch : chunk = 2 * half) (hh : 0 < half) (hx₀ : x₀ ∈ stepRange M chunk) :
    ∀ (n a : ℕ) (g : Grid), y₀ ∈ List.range' a n chunk →
      ((List.range' a n chunk).foldl
          (fun g y => (stepRange M chunk).foldl (sqIter hash2 r chunk half y) g) g)
          (x₀ + half) (y₀ + half) = sqAvg g chunk x₀ y₀
        ∧ ((List.range' a n chunk).foldl
          (fun g y => (stepRange M chunk).foldl (sqIter hash2 r chunk half y) g) g)
          x₀ y₀ = g x₀ y₀ + jitter hash2 r x₀ y₀ := by
  have hx₀' : x₀ ∈ List.range' 0 ((M + chunk - 1) / chunk) chunk := hx₀
  intro n
  induction n with
  | zero => intro a g hmem; simp [List.range'] at hmem
  | succ n ih =>
    intro a g hmem
    rw [List.range'_succ] at hmem ⊢
    rw [List.foldl_cons]
    rcases List.mem_cons.mp hmem with rfl | htl
    · obtain ⟨h1, h2⟩ := sqRow_spec hch hh _ _ g hx₀'
      constructor
      · rw [sqPass_frame _ _ ?_]
        · exact h1
        · intro y'' hy'' x' hx'
          have hge : y₀ + chunk ≤ y'' := range'_start_le hy''
          exact ⟨by omega, by omega⟩
      · rw [sqPass_frame _ _ ?_]
        · exact h2
        · intro y'' hy'' x' hx'
          have hge : y₀ + chunk ≤ y'' := range'_start_le hy''
          exact ⟨by omega, by omega⟩
    · have hge : a + chunk ≤ y₀ := range'_start_le htl
      obtain ⟨h1, h2⟩ :=
        ih (a + chunk) ((stepRange M chunk).foldl (sqIter hash2 r chunk half a) g) htl
      have e1 : (stepRange M chunk).foldl (sqIter hash2 r chunk half a) g x₀ y₀ = g x₀ y₀ :=
        sqRow_frame _ _ (fun x' hx' => ⟨by omega, by omega⟩)
      have e2 : (stepRange M chunk).foldl (sqIter hash2 r chunk half a) g (x₀ + chunk) y₀
          = g (x₀ + chunk) y₀ := sqRow_frame _ _ (fun x' hx' => ⟨by omega, by omega⟩)
      have e3 : (stepRange M chunk).foldl (sqIter hash2 r chunk half a) g x₀ (y₀ + chunk)
          = g x₀ (y₀ + chunk) := sqRow_frame _ _ (fun x' hx' => ⟨by omega, by omega⟩)
      have e4 : (stepRange M chunk).foldl (sqIter hash2 r chunk half a) g
          (x₀ + chunk) (y₀ + chunk) = g (x₀ + chunk) (y₀ + chunk) :=
        sqRow_frame _ _ (fun x' hx' => ⟨by omega, by omega⟩)
      constructor
      · rw [h1]
        unfold sqAvg
        rw [e1, e2, e3, e4]
      · rw [h2, e1]

theorem dmIter_at {hash2 : ℕ → ℕ → ℚ} {r : ℚ} {size half y x : ℕ} {g : Grid} :
    dmIter hash2 r size half y g x x y
      = dmSum g size half x y / (dmCount size half x y : ℚ) + jitter hash2 r x y := by
  unfold dmIter
  rw [upd_self, upd_self]

theorem dmIter_other {hash2 : ℕ → ℕ → ℚ} {r : ℚ} {size half y x : ℕ} {g : Grid}
    {p q : ℕ} (h : ¬(p = x ∧ q = y)) :
    dmIter hash2 r size half y g x p q = g p q := by
  unfold dmIter
  rw [upd_ne _ _ _ _ h, upd_ne _ _ _ _ h]

theorem dmRow_frame {hash2 : ℕ → ℕ → ℚ} {r : ℚ} {size half y : ℕ} {p q : ℕ} :
    ∀ (l : List ℕ) (g : Grid), (∀ x ∈ l, ¬(p = x ∧ q = y)) →
      (l.foldl (dmIter hash2 r size half y) g) p q = g p q := by
  intro l
  induction l with
  | nil => intro g _; rfl
  | cons x tl ih =>
    intro g hcond
    rw [List.foldl_cons, ih _ (fun x' hx' => hcond x' (List.mem_cons_of_mem _ hx'))]
    exact dmIter_other (hcond x (List.mem_cons_self x tl))

theorem dmSum_congr {g g' : Grid} {size half x y : ℕ}
    (h1 : half < x → g (x - half) y = g' (x - half) y)
    (h2 : half < y → g x (y - half) = g' x (y - half))
    (h3 : x + half < size - 1 → g (x + half) y = g' (x + half) y)
    (h4 : y + half < size - 1 → g x (y + half) = g' x (y + half)) :
    dmSum g size half x y = dmSum g' size half x y := by
  have b1 : (if half < x then g (x - half) y else 0)
      = (if half < x then g' (x - half) y else 0) := by
    split_ifs with hc
    · exact h1 hc
    · rfl
  have b2 : (if half < y then g x (y - half) else 0)
      = (if half < y then g' x (y - half) else 0) := by
    split_ifs with hc
    · exact h2 hc
    · rfl
  have b3 : (if x + half < size - 1 then g (x + half) y else 0)
      = (if x + half < size - 1 then g' (x + half) y else 0) := by
    split_ifs with hc
    · exact h3 hc
    · rfl
  have b4 : (if y + half < size - 1 then g x (y + half) else 0)
      = (if y + half < size - 1 then g' x (y + half) else 0) := by
    split_ifs with hc
    · exact h4 hc
    · rfl
  unfold dmSum
  rw [b1, b2, b3, b4]

theorem dmRow_spec {hash2 : ℕ → ℕ → ℚ} {r : ℚ} {size chunk half y x₀ : ℕ}
    (hch : chunk = 2 * half) (hh : 0 < half) :
    ∀ (n a : ℕ) (g : Grid), x₀ ∈ List.range' a n chunk →
      ((List.range' a n chunk).foldl (dmIter hash2 r size half y) g) x₀ y
        = dmSum g size half x₀ y / (dmCount size half x₀ y : ℚ) + jitter hash2 r x₀ y := by
  intro n
  induction n with
  | zero => intro a g hmem; simp [List.range'] at hmem
  | succ n ih =>
    intro a g hmem
    rw [List.range'_succ] at hmem ⊢
    rw [List.foldl_cons]
    rcases List.mem_cons.mp hmem with rfl | htl
    · rw [dmRow_frame _ _ ?_, dmIter_at]
      intro x' hx'
      have hge : x₀ + chunk ≤ x' := range'_start_le hx'
      omega
    · have hge : a + chunk ≤ x₀ := range'_start_le htl
      rw [ih (a + chunk) (dmIter hash2 r size half y g a) htl]
      have hsum : dmSum (dmIter hash2 r size half y g a) size half x₀ y
          = dmSum g size half x₀ y := by
        refine dmSum_congr ?_ ?_ ?_ ?_
        · intro hc; exact dmIter_other (by omega)
        · intro hc; exact dmIter_other (by omega)
        · intro hc; exact dmIter_other (by omega)
        · intro hc; exact dmIter_other (by omega)
      rw [hsum]

theorem dmPass_frame {hash2 : ℕ → ℕ → ℚ} {r : ℚ} {size chunk half : ℕ} {p q : ℕ} :
    ∀ (ys : List ℕ) (g : Grid),
      (∀ y' ∈ ys, ∀ x' ∈ stepRangeFrom ((y' + half) % chunk) size chunk, ¬(p = x' ∧ q = y')) →
      (ys.foldl
        (fun g y => (stepRangeFrom ((y + half) % chunk) size chunk).foldl
          (dmIter hash2 r size half y) g) g) p q = g p q := by
  intro ys
  induction ys with
  | nil => intro g _; rfl
  | cons y' tl ih =>
    intro g hcond
    rw [List.foldl_cons, ih _ (fun y'' hy'' => hcond y'' (List.mem_cons_of_mem _ hy''))]
    exact dmRow_frame _ g (hcond y' (List.mem_cons_self y' tl))

theorem phase_ne {a half chunk : ℕ} (hch : chunk = 2 * half) (hh : 0 < half) :
    (a + 2 * half) % chunk ≠ (a + half) % chunk := by
  intro heq
  have hmodeq : a + half ≡ a + 2 * half [MOD chunk] := heq.symm
  have hdvd : chunk ∣ (a + 2 * half) - (a + half) :=
    (Nat.modEq_iff_dvd' (by omega)).mp hmodeq
  have : (a + 2 * half) - (a + half) = half := by omega
  rw [this] at hdvd
  have := Nat.le_of_dvd hh hdvd
  omega

theorem dmPass_spec {hash2 : ℕ → ℕ → ℚ} {r : ℚ} {size chunk half x₀ y₀ : ℕ}
    (hch : chunk = 2 * half) (hh : 0 < half)
    (hx₀ : x₀ ∈ stepRangeFrom ((y₀ + half) % chunk) size chunk) :
    ∀ (n a : ℕ) (g : Grid), y₀ ∈ List.range' a n half →
      ((List.range' a n half).foldl
        (fun g y => (stepRangeFrom ((y + half) % chunk) size chunk).foldl
          (dmIter hash2 r size half y) g) g) x₀ y₀
        = dmSum g size half x₀ y₀ / (dmCount size half x₀ y₀ : ℚ) + jitter hash2 r x₀ y₀ := by
  have hchunkpos : 0 < chunk := by omega
  have hx₀m := dm_row_mod hchunkpos hx₀
  have hx₀' : x₀ ∈ List.range' ((y₀ + half) % chunk)
      ((size - (y₀ + half) % chunk + chunk - 1) / chunk) chunk := hx₀
  intro n
  induction n with
  | zero => intro a g hmem; simp [List.range'] at hmem
  | succ n ih =>
    intro a g hmem
    rw [List.range'_succ] at hmem ⊢
    rw [List.foldl_cons]
    rcases List.mem_cons.mp hmem with rfl | htl
    · rw [dmPass_frame _ _ ?_]
      · exact dmRow_spec hch hh _ _ g hx₀'
      · intro y'' hy'' x' hx'
        have hge : y₀ + half ≤ y'' := range'_start_le hy''
        omega
    · have hge : a + half ≤ y₀ := range'_start_le htl
      rw [ih (a + half) _ htl]
      have hsum : dmSum ((stepRangeFrom ((a + half) % chunk) size chunk).foldl
            (dmIter hash2 r size half a) g) size half x₀ y₀
          = dmSum g size half x₀ y₀ := by
        refine dmSum_congr ?_ ?_ ?_ ?_
        · intro hc
          exact dmRow_frame _ _ (fun x' hx' => by omega)
        · intro hc
          refine dmRow_frame _ _ (fun x' hx' => ?_)
          rintro ⟨rfl, hya⟩
          have hx'm := dm_row_mod hchunkpos hx'
          have hy₀a : y₀ = a + half := by omega
          rw [hx₀m] at hx'm
          have : y₀ + half = a + 2 * half := by omega
          rw [this] at hx'm
          exact phase_ne hch hh hx'm
        · intro hc
          exact dmRow_frame _ _ (fun x' hx' => by omega)
        · intro hc
          exact dmRow_frame _ _ (fun x' hx' => by omega)
      rw [hsum]

/-- C3: in every square pass, the center cell `(x + half, y + half)` of each
chunk with top-left `(x, y)` on the `chunk_size`-spaced grid is set to the
exact average of the chunk's four corner elevations with no jitter, and the
jitter term `(hash(x, y) * 2 - 1) * roughness` is added to the chunk's
top-left corner cell `(x, y)` instead. -/
theorem square_center_average_jitter_topleft (hash2 : ℕ → ℕ → ℚ) (r : ℚ)
    (size chunk half : ℕ) (g : Grid) (x y : ℕ) (hch : chunk = 2 * half) (hh : 0 < half)
    (hx : x ∈ stepRange (size - 1) chunk) (hy : y ∈ stepRange (size - 1) chunk) :
    squarePass hash2 r size chunk half g (x + half) (y + half)
        = (g x y + g (x + chunk) y + g x (y + chunk) + g (x + chunk) (y + chunk)) / 4
      ∧ squarePass hash2 r size chunk half g x y = g x y + (hash2 x y * 2 - 1) * r := by
  have h := @sqPass_spec hash2 r chunk half x y (size - 1) hch hh hx
    ((size - 1 + chunk - 1) / chunk) 0 g hy
  exact h

/-- Witness for `square_center_average_jitter_topleft` at `image_size = 3`,
`chunk = 2`, `half = 1`, chunk top-left `(0, 0)`. -/
theorem square_center_average_jitter_topleft_witness :
    squarePass (fun _ _ => (0 : ℚ)) 2 3 2 1 gW (0 + 1) (0 + 1)
        = (gW 0 0 + gW (0 + 2) 0 + gW 0 (0 + 2) + gW (0 + 2) (0 + 2)) / 4
      ∧ squarePass (fun _ _ => (0 : ℚ)) 2 3 2 1 gW 0 0
        = gW 0 0 + ((fun _ _ => (0 : ℚ)) 0 0 * 2 - 1) * 2 :=
  square_center_average_jitter_topleft (fun _ _ => 0) 2 3 2 1 gW
    0 0 rfl (by decide) (by decide) (by decide)

/-- C2 as amended: each cell `(x, y)` visited by the diamond pass is set to
the sum of the cardinal neighbors at distance `half` accepted by the
strictly-interior guards (`x > half`, `y > half`, `x + half < size - 1`,
`y + half < size - 1`), divided by the count of accepted neighbors, plus
the jitter term; for every valid request that count is 1, 2, 3 or 4, never
0 (boundary neighbors at index 0 or `size - 1` are excluded even when in
bounds, so the count can be 1). -/
theorem diamond_guarded_average_count_pos (hash2 : ℕ → ℕ → ℚ) (r : ℚ)
    (size chunk half : ℕ) (g : Grid) (x y : ℕ) (hch : chunk = 2 * half) (hh : 0 < half)
    (hdvd : chunk ∣ size - 1) (hpos : 0 < size - 1)
    (hy : y ∈ stepRange size half)
    (hx : x ∈ stepRangeFrom ((y + half) % chunk) size chunk) :
    diamondPass hash2 r size chunk half g x y
        = dmSum g size half x y / (dmCount size half x y : ℚ) + (hash2 x y * 2 - 1) * r
      ∧ 1 ≤ dmCount size half x y ∧ dmCount size half x y ≤ 4 := by
  refine ⟨dmPass_spec hch hh hx ((size + half - 1) / half) 0 g hy, ?_, ?_⟩
  · by_contra hc
    have h0 : dmCount size half x y = 0 := by omega
    unfold dmCount at h0
    split_ifs at h0 with g1 g2 g3 g4 <;> try omega
    all_goals {
      have hcle : chunk ≤ size - 1 := Nat.le_of_dvd hpos hdvd
      have hx2 : x = half := by omega
      have hy2 : y = half := by omega
      have hmod := dm_row_mod (show 0 < chunk by omega) hx
      rw [hx2, hy2] at hmod
      have h2h : half + half = chunk := by omega
      rw [h2h, Nat.mod_self] at hmod
      have hsm : half % chunk = half := Nat.mod_eq_of_lt (by omega)
      omega }
  · unfold dmCount
    split_ifs <;> omega

/-- Witness for `diamond_guarded_average_count_pos` at `image_size = 3`,
`chunk = 2`, `half = 1`, diamond cell `(1, 0)`. -/
theorem diamond_guarded_average_count_pos_witness :
    diamondPass (fun _ _ => (1 : ℚ)) 1 3 2 1 (fun _ _ => 1) 1 0
        = dmSum (fun _ _ => 1) 3 1 1 0 / (dmCount 3 1 1 0 : ℚ)
          + ((fun _ _ => (1 : ℚ)) 1 0 * 2 - 1) * 1
      ∧ 1 ≤ dmCount 3 1 1 0 ∧ dmCount 3 1 1 0 ≤ 4 :=
  diamond_guarded_average_count_pos (fun _ _ => 1) 1 3 2 1 (fun _ _ => 1) 1 0 rfl
    (by decide) (by decide) (by decide) (by decide) (by decide)

/-- C2 is refuted as stated: at `image_size = 3` (`chunk = 2`, `half = 1`)
the diamond pass visits the edge midpoint `(1, 0)`, whose guard-accepted
neighbor count is 1 — not 2, 3 or 4 — although three of its cardinal
neighbors at distance 1 lie within grid bounds; consequently the written
value is not the average of the in-bounds neighbors. -/
theorem diamond_inbounds_average_refuted :
    dmCount 3 1 1 0 = 1
      ∧ ¬(dmCount 3 1 1 0 = 2 ∨ dmCount 3 1 1 0 = 3 ∨ dmCount 3 1 1 0 = 4)
      ∧ specInBoundsCount 3 1 1 0 = 3
      ∧ (0 ∈ stepRange 3 1 ∧ 1 ∈ stepRangeFrom ((0 + 1) % 2) 3 2)
      ∧ diamondPass (fun _ _ => 0) 0 3 2 1 exGrid 1 0
          ≠ (exGrid 0 0 + exGrid 2 0 + exGrid 1 1) / 3 := by
  refine ⟨by decide, by decide, by decide, ⟨by decide, by decide⟩, ?_⟩
  have h := @dmPass_spec (fun _ _ => 0) 0 3 2 1 1 0 rfl (by decide) (by decide) 3 0 exGrid
    (by decide)
  have hD : diamondPass (fun _ _ => (0 : ℚ)) 0 3 2 1 exGrid 1 0
      = dmSum exGrid 3 1 1 0 / (dmCount 3 1 1 0 : ℚ) + jitter (fun _ _ => 0) 0 1 0 := h
  have hc1 : dmCount 3 1 1 0 = 1 := by decide
  have hs1 : dmSum exGrid 3 1 1 0 = 0 := by
    unfold dmSum exGrid
    norm_num
  rw [hD, hc1, hs1]
  unfold exGrid jitter
  norm_num

theorem quantize_floor_bounds (p : ℚ) (h0 : 0 ≤ p) (h1 : p < 1) :
    quantize p = ⌊p * 255⌋ ∧ 0 ≤ ⌊p * 255⌋ ∧ ⌊p * 255⌋ ≤ 254 := by
  have hm0 : (0 : ℚ) ≤ p * 255 := by positivity
  have hfl0 : 0 ≤ ⌊p * 255⌋ := Int.floor_nonneg.mpr hm0
  have hfl : ⌊p * 255⌋ ≤ 254 := by
    have hlt : p * 255 < ((255 : ℤ) : ℚ) := by push_cast; nlinarith
    have := Int.floor_lt.mpr hlt
    omega
  refine ⟨?_, hfl0, hfl⟩
  unfold quantize f32ToI32 ratTrunc
  rw [if_neg (not_lt.mpr hm0)]
  have hpow : (2 : ℤ) ^ 31 = 2147483648 := by norm_num
  rw [min_eq_right (by omega), max_eq_right (by omega)]

theorem channel16_eq (c : ℤ) : channel c 16 = ((c / 65536) % 256).toNat := by
  unfold channel
  norm_num

theorem channel8_eq (c : ℤ) : channel c 8 = ((c / 256) % 256).toNat := by
  unfold channel
  norm_num

theorem channel0_eq (c : ℤ) : channel c 0 = (c % 256).toNat := by
  unfold channel
  norm_num

theorem pack1_channels (w : ℤ) (hw0 : 0 ≤ w) (hw : w ≤ 255) :
    channel w 16 = 0 ∧ channel w 8 = 0 ∧ channel w 0 = w.toNat := by
  rw [channel16_eq, channel8_eq, channel0_eq]
  refine ⟨by omega, by omega, by omega⟩

theorem pack_green_channels (w : ℤ) (hw0 : 0 ≤ w) (hw : w ≤ 255) :
    channel (w * 256) 16 = 0 ∧ channel (w * 256) 8 = w.toNat
      ∧ channel (w * 256) 0 = 0 := by
  rw [channel16_eq, channel8_eq, channel0_eq]
  have hq2 : w * 256 / 256 = w := by omega
  rw [hq2]
  refine ⟨by omega, by omega, by omega⟩

theorem pack3_channels (w : ℤ) (hw0 : 0 ≤ w) (hw : w ≤ 255) :
    channel (w * 65536 + w * 256 + w) 16 = w.toNat
      ∧ channel (w * 65536 + w * 256 + w) 8 = w.toNat
      ∧ channel (w * 65536 + w * 256 + w) 0 = w.toNat := by
  rw [channel16_eq, channel8_eq, channel0_eq]
  have hq1 : (w * 65536 + w * 256 + w) / 65536 = w := by omega
  have hq2 : (w * 65536 + w * 256 + w) / 256 = 257 * w := by omega
  rw [hq1, hq2]
  refine ⟨by omega, by omega, by omega⟩

/-- C4 as amended: the quantized value is `trunc(p × 255)` — truncation
toward zero (hence the floor, for the nonnegative squashed fraction `p`),
not `round(p × 255)` — and for every `p` in the sigmoid's range `[0, 1)`
it already lies in `[0, 254] ⊆ [0, 255]`, so no byte is out of range even
though the code applies no explicit clamp (the saturating `as i32` cast
acts only outside this range). -/
theorem quantize_truncates_in_range (p : ℚ) (h0 : 0 ≤ p) (h1 : p < 1) :
    quantize p = ⌊p * 255⌋ ∧ 0 ≤ quantize p ∧ quantize p ≤ 254 := by
  obtain ⟨he, hl, hu⟩ := quantize_floor_bounds p h0 h1
  exact ⟨he, by omega, by omega⟩

/-- Witness for `quantize_truncates_in_range` at `p = 1/2`. -/
theorem quantize_truncates_in_range_witness :
    quantize (1 / 2) = ⌊(1 / 2 : ℚ) * 255⌋
      ∧ 0 ≤ quantize (1 / 2) ∧ quantize (1 / 2) ≤ 254 :=
  quantize_truncates_in_range (1 / 2) (by norm_num) (by norm_num)

/-- C4 is refuted as stated: for the squashed fraction `p = 0.187` the code
produces the byte `trunc(0.187 × 255) = 47`, while `round(p × 255)` clamped
into `[0, 255]` — what the claim prescribes — is `48`. -/
theorem quantize_round_refuted :
    channel (colorize (187 / 1000)) 0 = 47
      ∧ specQuantize (187 / 1000) = 48
      ∧ (47 : ℕ) ≠ 48 := by
  have h47 : ⌊(187 : ℚ) / 1000 * 255⌋ = (47 : ℤ) := by
    rw [Int.floor_eq_iff]
    constructor <;> norm_num
  refine ⟨?_, ?_, by decide⟩
  · have hc : colorize (187 / 1000) = 47 := by
      unfold colorize quantize f32ToI32 ratTrunc
      rw [if_neg (by norm_num : ¬((187 : ℚ) / 1000 * 255) < 0), h47,
        min_eq_right (by norm_num), max_eq_right (by norm_num),
        if_pos (by norm_num : (187 : ℚ) / 1000 < 0.2)]
    rw [hc]
    decide
  · unfold specQuantize
    have h48 : round ((187 : ℚ) / 1000 * 255) = (48 : ℤ) := by
      rw [round_eq, Int.floor_eq_iff]
      constructor <;> norm_num
    rw [h48]
    norm_num

/-- C5: band selection uses the squashed fraction `p` with inclusive lower
bounds — `p < 0.2` gives blue only; `0.2 ≤ p < 0.65` gives the mid band
(green = value, red = blue = 0), so `p = 0.20` exactly falls in the mid
band; `0.65 ≤ p < 0.9` gives the transition band
(red = green = blue = value / 2); `0.9 ≤ p` gives the highest band
(red = green = blue = value).  The rule is decided by comparing `p`, not
the quantized byte. -/
theorem banding_inclusive_lower_bounds (p : ℚ) (h0 : 0 ≤ p) (h1 : p < 1) :
    (p < 0.2 → toBytes (colorize p) = [0, 0, (quantize p).toNat, 0xFF])
      ∧ (0.2 ≤ p → p < 0.65 → toBytes (colorize p) = [0, (quantize p).toNat, 0, 0xFF])
      ∧ (0.65 ≤ p → p < 0.9 →
          toBytes (colorize p) = [(Int.tdiv (quantize p) 2).toNat,
            (Int.tdiv (quantize p) 2).toNat, (Int.tdiv (quantize p) 2).toNat, 0xFF])
      ∧ (0.9 ≤ p →
          toBytes (colorize p) = [(quantize p).toNat, (quantize p).toNat,
            (quantize p).toNat, 0xFF]) := by
  obtain ⟨he, hl, hu⟩ := quantize_floor_bounds p h0 h1
  have hv0 : 0 ≤ quantize p := by omega
  have hv : quantize p ≤ 254 := by omega
  have htd : Int.tdiv (quantize p) 2 = quantize p / 2 := Int.tdiv_eq_ediv hv0 (by norm_num)
  refine ⟨?_, ?_, ?_, ?_⟩
  · intro hb
    have hveq : colorize p = quantize p := by
      simp only [colorize]
      rw [if_pos hb]
    have hb50 : quantize p ≤ 50 := by
      have h2 := mul_lt_mul_of_pos_right hb (show (0 : ℚ) < 255 by norm_num)
      have h3 : (0.2 : ℚ) * 255 = 51 := by norm_num
      have hlt : p * 255 < ((51 : ℤ) : ℚ) := by push_cast; linarith
      have := Int.floor_lt.mpr hlt
      omega
    obtain ⟨e1, e2, e3⟩ := pack1_channels (quantize p) hv0 (by omega)
    rw [hveq]
    unfold toBytes
    rw [e1, e2, e3]
  · intro hb1 hb2
    have hveq : colorize p = quantize p * 2 ^ 8 := by
      simp only [colorize]
      rw [if_neg (not_lt.mpr hb1), if_pos hb2]
    have hb165 : quantize p ≤ 165 := by
      have h2 := mul_lt_mul_of_pos_right hb2 (show (0 : ℚ) < 255 by norm_num)
      have h3 : (0.65 : ℚ) * 255 < 166 := by norm_num
      have hlt : p * 255 < ((166 : ℤ) : ℚ) := by push_cast; linarith
      have := Int.floor_lt.mpr hlt
      omega
    have hp8 : quantize p * 2 ^ 8 = quantize p * 256 := by norm_num
    obtain ⟨e1, e2, e3⟩ := pack_green_channels (quantize p) hv0 (by omega)
    rw [hveq, hp8]
    unfold toBytes
    rw [e1, e2, e3]
  · intro hb1 hb2
    have hveq : colorize p
        = Int.tdiv (quantize p) 2 * 2 ^ 16 + Int.tdiv (quantize p) 2 * 2 ^ 8
          + Int.tdiv (quantize p) 2 := by
      simp only [colorize]
      rw [if_neg (not_lt.mpr (le_trans (by norm_num : (0.2 : ℚ) ≤ 0.65) hb1)),
        if_neg (not_lt.mpr hb1), if_pos hb2]
    rw [hveq, htd]
    have hpk : quantize p / 2 * 2 ^ 16 + quantize p / 2 * 2 ^ 8 + quantize p / 2
        = quantize p / 2 * 65536 + quantize p / 2 * 256 + quantize p / 2 := by norm_num
    rw [hpk]
    obtain ⟨e1, e2, e3⟩ := pack3_channels (quantize p / 2) (by omega) (by omega)
    unfold toBytes
    rw [e1, e2, e3]
  · intro hb1
    have hveq : colorize p
        = quantize p * 2 ^ 16 + quantize p * 2 ^ 8 + quantize p := by
      simp only [colorize]
      rw [if_neg (not_lt.mpr (le_trans (by norm_num : (0.2 : ℚ) ≤ 0.9) hb1)),
        if_neg (not_lt.mpr (le_trans (by norm_num : (0.65 : ℚ) ≤ 0.9) hb1)),
        if_neg (not_lt.mpr hb1)]
    rw [hveq]
    have hpk : quantize p * 2 ^ 16 + quantize p * 2 ^ 8 + quantize p
        = quantize p * 65536 + quantize p * 256 + quantize p := by norm_num
    rw [hpk]
    obtain ⟨e1, e2, e3⟩ := pack3_channels (quantize p) hv0 (by omega)
    unfold toBytes
    rw [e1, e2, e3]

/-- Witness for `banding_inclusive_lower_bounds` at the exact band boundary
`p = 0.65`, which falls in the transition band. -/
theorem banding_inclusive_lower_bounds_witness :
    toBytes (colorize 0.65) = [(Int.tdiv (quantize 0.65) 2).toNat,
      (Int.tdiv (quantize 0.65) 2).toNat, (Int.tdiv (quantize 0.65) 2).toNat, 0xFF] :=
  (banding_inclusive_lower_bounds 0.65 (by norm_num) (by norm_num)).2.2.1
    (by norm_num) (by norm_num)

theorem seedCorners_eval (hash : ℤ → ℤ → ℚ) (px py : ℤ) (size : ℕ) (hs : 2 ≤ size) :
    seedCorners hash px py size 0 0 = hash px py
      ∧ seedCorners hash px py size 0 (size - 1) = hash px (py + 1)
      ∧ seedCorners hash px py size (size - 1) 0 = hash (px + 1) py
      ∧ seedCorners hash px py size (size - 1) (size - 1) = hash (px + 1) (py + 1) := by
  unfold seedCorners
  refine ⟨?_, ?_, ?_, ?_⟩
  · rw [upd_ne _ _ _ _ (by omega), upd_ne _ _ _ _ (by omega),
      upd_ne _ _ _ _ (by omega), upd_self]
  · rw [upd_ne _ _ _ _ (by omega), upd_ne _ _ _ _ (by omega), upd_self]
  · rw [upd_ne _ _ _ _ (by omega), upd_self]
  · rw [upd_self]

/-- C6: before any refinement pass, the four grid corners hold
`hash(px, py)` at `[0][0]`, `hash(px, py+1)` at `[0][size-1]`,
`hash(px+1, py)` at `[size-1][0]` and `hash(px+1, py+1)` at the opposite
corner, and these four lookups are the only ones that incorporate the
tile's position: whenever two positions agree on those four hash values,
the entire output is identical. -/
theorem corner_seeding_position_only (hash : ℤ → ℤ → ℚ) (px py : ℤ) (size : ℕ)
    (hs : 2 ≤ size) :
    (seedCorners hash px py size 0 0 = hash px py
      ∧ seedCorners hash px py size 0 (size - 1) = hash px (py + 1)
      ∧ seedCorners hash px py size (size - 1) 0 = hash (px + 1) py
      ∧ seedCorners hash px py size (size - 1) (size - 1) = hash (px + 1) (py + 1))
    ∧ ∀ (digest : ℤ → ℤ → ℤ → ℕ) (squash : ℚ → ℚ) (rough : ℚ) (seed : ℤ) (p₁ p₂ : ℤ × ℤ),
        hashFrac digest seed p₁.1 p₁.2 = hashFrac digest seed p₂.1 p₂.2 →
        hashFrac digest seed p₁.1 (p₁.2 + 1) = hashFrac digest seed p₂.1 (p₂.2 + 1) →
        hashFrac digest seed (p₁.1 + 1) p₁.2 = hashFrac digest seed (p₂.1 + 1) p₂.2 →
        hashFrac digest seed (p₁.1 + 1) (p₁.2 + 1)
            = hashFrac digest seed (p₂.1 + 1) (p₂.2 + 1) →
        generate_map digest squash p₁ rough seed size
            = generate_map digest squash p₂ rough seed size := by
  constructor
  · exact seedCorners_eval hash px py size hs
  · intro digest squash rough seed p₁ p₂ e1 e2 e3 e4
    have hsc : seedCorners (hashFrac digest seed) p₁.1 p₁.2 size
        = seedCorners (hashFrac digest seed) p₂.1 p₂.2 size := by
      unfold seedCorners
      rw [e1, e2, e3, e4]
    unfold generate_map
    rw [hsc]

/-- Witness for `corner_seeding_position_only` at `image_size = 3` with a
constant digest, for which two distinct positions agree on all corner
hashes and produce identical output. -/
theorem corner_seeding_position_only_witness :
    generate_map (fun _ _ _ => 0) id (0, 0) 2 0 3 = generate_map (fun _ _ _ => 0) id (5, 7) 2 0 3 :=
  (corner_seeding_position_only (hashFrac (fun _ _ _ => 0) 0) 0 0 3 (by norm_num)).2
    (fun _ _ _ => 0) id 2 0 (0, 0) (5, 7) rfl rfl rfl rfl

/-- C9: generation is deterministic — the coordinate hash always lands in
`[0, 1)` (its 64-bit digest is reduced `% 255` and divided by `255`), and
two calls of `generate_map` with identical position, roughness, seed and
image size produce identical byte output. -/
theorem generation_deterministic_hash_range :
    (∀ (digest : ℤ → ℤ → ℤ → ℕ) (seed x y : ℤ),
        0 ≤ hashFrac digest seed x y ∧ hashFrac digest seed x y < 1)
      ∧ ∀ (digest : ℤ → ℤ → ℤ → ℕ) (squash : ℚ → ℚ) (p₁ p₂ : ℤ × ℤ) (r₁ r₂ : ℚ)
          (s₁ s₂ : ℤ) (n₁ n₂ : ℕ), p₁ = p₂ → r₁ = r₂ → s₁ = s₂ → n₁ = n₂ →
          generate_map digest squash p₁ r₁ s₁ n₁ = generate_map digest squash p₂ r₂ s₂ n₂ := by
  constructor
  · intro digest seed x y
    unfold hashFrac
    constructor
    · positivity
    · rw [div_lt_one (by norm_num)]
      have hm : digest seed x y % 0xFF < 0xFF := Nat.mod_lt _ (by norm_num)
      exact_mod_cast hm
  · intro digest squash p₁ p₂ r₁ r₂ s₁ s₂ n₁ n₂ hp hr hs hn
    rw [hp, hr, hs, hn]

/-- Witness for `generation_deterministic_hash_range` at a concrete digest
and request. -/
theorem generation_deterministic_hash_range_witness :
    (0 ≤ hashFrac (fun _ _ _ => 3) 0 1 2 ∧ hashFrac (fun _ _ _ => 3) 0 1 2 < 1)
      ∧ generate_map (fun _ _ _ => 3) id (0, 0) 2 0 3
          = generate_map (fun _ _ _ => 3) id (0, 0) 2 0 3 :=
  ⟨generation_deterministic_hash_range.1 (fun _ _ _ => 3) 0 1 2,
    generation_deterministic_hash_range.2 (fun _ _ _ => 3) id (0, 0) (0, 0) 2 2 0 0 3 3
      rfl rfl rfl rfl⟩

theorem length_flatten_const {α : Type} (n : ℕ) :
    ∀ (L : List (List α)), (∀ l ∈ L, l.length = n) → L.flatten.length = n * L.length := by
  intro L
  induction L with
  | nil => intro _; simp
  | cons l L ih =>
    intro h
    rw [List.flatten_cons, List.length_append, h l (List.mem_cons_self l L),
      ih (fun l' hl' => h l' (List.mem_cons_of_mem _ hl')), List.length_cons]
    ring

theorem flatten_flatten_eq {α : Type} :
    ∀ (L : List (List (List α))), L.flatten.flatten = (L.map List.flatten).flatten := by
  intro L
  induction L with
  | nil => rfl
  | cons l L ih =>
    rw [List.flatten_cons, List.flatten_append, ih, List.map_cons, List.flatten_cons]

theorem toBytes_blocks :
    ∀ (l : List ℤ) (n : ℕ), n < l.length → ((l.map toBytes).flatten)[4 * n + 3]? = some 255 := by
  intro l
  induction l with
  | nil => intro n h; simp at h
  | cons c t ih =>
    intro n h
    cases n with
    | zero =>
      rw [show 4 * 0 + 3 = 0 + 1 + 1 + 1 from by ring]
      simp only [List.map_cons, List.flatten_cons, toBytes, List.cons_append,
        List.getElem?_cons_succ, List.getElem?_cons_zero]
    | succ n =>
      have hidx : 4 * (n + 1) + 3 = 4 * n + 3 + 1 + 1 + 1 + 1 := by ring
      rw [hidx]
      simp only [List.map_cons, List.flatten_cons, toBytes, List.cons_append, List.nil_append]
      rw [List.getElem?_cons_succ, List.getElem?_cons_succ, List.getElem?_cons_succ,
        List.getElem?_cons_succ]
      exact ih n (by simpa using h)

theorem generatePixels_eq_flatMap (squash : ℚ → ℚ) (size : ℕ) (g : Grid) :
    generatePixels squash size g
      = (List.range size).flatMap (fun x => (List.range size).flatMap
          (fun y => toBytes (colorize (squash (g x y))))) := by
  unfold generatePixels
  rw [List.map_flatten, List.map_flatten, List.map_flatten, flatten_flatten_eq]
  simp only [List.map_map, List.flatMap_def, Function.comp_def]

theorem generate_map_length (digest : ℤ → ℤ → ℤ → ℕ) (squash : ℚ → ℚ) (pos : ℤ × ℤ)
    (rough : ℚ) (seed : ℤ) (size : ℕ) :
    (generate_map digest squash pos rough seed size).length = size * size * 4 := by
  unfold generate_map generatePixels
  have h4 : ∀ b ∈ ((((List.range size).map (fun x => (List.range size).map
      (fun y => refineLoop (fun a b => hashFrac digest seed (a : ℤ) (b : ℤ)) size
        (size - 1) rough (seedCorners (hashFrac digest seed) pos.1 pos.2 size) x
        y))).flatten.map squash).map colorize).map toBytes, b.length = 4 := by
    intro b hb
    obtain ⟨c, _, rfl⟩ := List.mem_map.mp hb
    rfl
  rw [length_flatten_const 4 _ h4, List.length_map, List.length_map, List.length_map]
  have hrow : ∀ r ∈ (List.range size).map (fun x => (List.range size).map
      (fun y => refineLoop (fun a b => hashFrac digest seed (a : ℤ) (b : ℤ)) size
        (size - 1) rough (seedCorners (hashFrac digest seed) pos.1 pos.2 size) x y)),
      r.length = size := by
    intro r hr
    obtain ⟨x, _, rfl⟩ := List.mem_map.mp hr
    rw [List.length_map, List.length_range]
  rw [length_flatten_const size _ hrow, List.length_map, List.length_range]
  ring

/-- C8: for every valid request the output is a flat byte sequence of
length exactly `image_size² × 4`, consisting of 4 bytes
`[red, green, blue, 255]` per heightmap cell (every fourth byte is 255,
the opaque alpha), emitted in the same row-major traversal order in
which the heightmap is stored (outer index first, then inner index). -/
theorem output_length_rgba_rowmajor (digest : ℤ → ℤ → ℤ → ℕ) (squash : ℚ → ℚ)
    (pos : ℤ × ℤ) (rough : ℚ) (seed : ℤ) (size k : ℕ) (_hk : 1 ≤ k)
    (_hsz : size = 2 ^ k + 1) :
    (generate_map digest squash pos rough seed size).length = size * size * 4
      ∧ (∀ n, n < size * size →
          (generate_map digest squash pos rough seed size)[4 * n + 3]? = some 255)
      ∧ generate_map digest squash pos rough seed size
          = (List.range size).flatMap (fun x => (List.range size).flatMap (fun y =>
              toBytes (colorize (squash (refineLoop
                (fun a b => hashFrac digest seed (a : ℤ) (b : ℤ)) size (size - 1) rough
                (seedCorners (hashFrac digest seed) pos.1 pos.2 size) x y))))) := by
  refine ⟨generate_map_length digest squash pos rough seed size, ?_, ?_⟩
  · intro n hn
    have hrow : ∀ r ∈ (List.range size).map (fun x => (List.range size).map
        (fun y => refineLoop (fun a b => hashFrac digest seed (a : ℤ) (b : ℤ)) size
          (size - 1) rough (seedCorners (hashFrac digest seed) pos.1 pos.2 size) x y)),
        r.length = size := by
      intro r hr
      obtain ⟨x, _, rfl⟩ := List.mem_map.mp hr
      rw [List.length_map, List.length_range]
    have hlen : ((((List.range size).map (fun x => (List.range size).map
        (fun y => refineLoop (fun a b => hashFrac digest seed (a : ℤ) (b : ℤ)) size
          (size - 1) rough (seedCorners (hashFrac digest seed) pos.1 pos.2 size) x
          y))).flatten.map squash).map colorize).length = size * size := by
      rw [List.length_map, List.length_map, length_flatten_const size _ hrow,
        List.length_map, List.length_range]
    exact toBytes_blocks _ n (by rw [hlen]; exact hn)
  · exact generatePixels_eq_flatMap squash size _

/-- Witness for `output_length_rgba_rowmajor` at `image_size = 5`
(`k = 2`): the output length is `5 × 5 × 4 = 100`. -/
theorem output_length_rgba_rowmajor_witness :
    (generate_map (fun _ _ _ => 0) id (0, 0) 2 0 5).length = 5 * 5 * 4 :=
  (output_length_rgba_rowmajor (fun _ _ _ => 0) id (0, 0) 2 0 5 2 (by norm_num)
    (by norm_num)).1

/-- C1 as amended: `generate_map` performs no size validation and has no
`InvalidSize` error path — at every image size where its `Vec` accesses
stay in bounds (the whole family `image_size = 2^k + 1` with `k ≥ 1`, and
also the traced sizes 4, 5 and 257) it returns a full
`image_size² × 4`-byte buffer instead of rejecting the request.  In
particular `image_size = 5`, which the spec's test case expects to be
rejected even though `5 - 1 = 2²` satisfies the spec's own power-of-two
rule, succeeds, and so does `image_size = 4`, whose `4 - 1 = 3` is not a
power of two. -/
theorem no_size_validation (digest : ℤ → ℤ → ℤ → ℕ) (squash : ℚ → ℚ) (pos : ℤ × ℤ)
    (rough : ℚ) (seed : ℤ) :
    (∀ size k : ℕ, 1 ≤ k → size = 2 ^ k + 1 →
        (generate_map digest squash pos rough seed size).length = size * size * 4)
      ∧ (generate_map digest squash pos rough seed 4).length = 4 * 4 * 4
      ∧ (generate_map digest squash pos rough seed 5).length = 5 * 5 * 4
      ∧ (generate_map digest squash pos rough seed 257).length = 257 * 257 * 4 :=
  ⟨fun size _k _hk _hsz => generate_map_length digest squash pos rough seed size,
    generate_map_length digest squash pos rough seed 4,
    generate_map_length digest squash pos rough seed 5,
    generate_map_length digest squash pos rough seed 257⟩

/-- Witness for `no_size_validation` at `image_size = 9 = 2^3 + 1`. -/
theorem no_size_validation_witness :
    (generate_map (fun _ _ _ => 0) id (0, 0) 2 0 9).length = 9 * 9 * 4 :=
  (no_size_validation (fun _ _ _ => 0) id (0, 0) 2 0).1 9 3 (by norm_num) (by norm_num)

/-- C1 is refuted as stated: the generator does not reject any request —
at `image_size = 5` (which the claim says yields `InvalidSize`) it produces
a complete 100-byte output, and even at `image_size = 4`, whose
`image_size - 1 = 3` is not a power of two, it produces a complete 64-byte
output instead of an `InvalidSize` error. -/
theorem size_five_rejection_refuted :
    (generate_map (fun _ _ _ => 0) id (0, 0) 2 0 5).length = 100
      ∧ (generate_map (fun _ _ _ => 0) id (0, 0) 2 0 4).length = 64 := by
  constructor
  · rw [generate_map_length]
  · rw [generate_map_length]

theorem add_multiple_mod {a b s : ℕ} (hd : s ∣ a) (hb : b < s) : (a + b) % s = b := by
  obtain ⟨c, rfl⟩ := hd
  rw [Nat.add_comm, Nat.add_mul_mod_self_left, Nat.mod_eq_of_lt hb]

theorem dvd_mod_zero {a s : ℕ} (hd : s ∣ a) : a % s = 0 := by
  obtain ⟨c, rfl⟩ := hd
  exact Nat.mul_mod_right s c

theorem level_corners (hash2 : ℕ → ℕ → ℚ) (r : ℚ) (size chunk half : ℕ) (g : Grid)
    (hch : chunk = 2 * half) (hh : 0 < half) (hdvd : chunk ∣ size - 1)
    (hle : chunk ≤ size - 1) :
    diamondPass hash2 r size chunk half (squarePass hash2 r size chunk half g) 0 0
        = g 0 0 + jitter hash2 r 0 0
      ∧ diamondPass hash2 r size chunk half (squarePass hash2 r size chunk half g)
          0 (size - 1) = g 0 (size - 1)
      ∧ diamondPass hash2 r size chunk half (squarePass hash2 r size chunk half g)
          (size - 1) 0 = g (size - 1) 0
      ∧ diamondPass hash2 r size chunk half (squarePass hash2 r size chunk half g)
          (size - 1) (size - 1) = g (size - 1) (size - 1) := by
  have hcpos : 0 < chunk := by omega
  have hpos : 0 < size - 1 := by omega
  have hmodx : ∀ x' y' : ℕ, x' ∈ stepRangeFrom ((y' + half) % chunk) size chunk →
      x' % chunk = (y' + half) % chunk := fun x' y' hx' => dm_row_mod hcpos hx'
  have hd00 : diamondPass hash2 r size chunk half (squarePass hash2 r size chunk half g) 0 0
      = squarePass hash2 r size chunk half g 0 0 := by
    refine dmPass_frame _ _ ?_
    intro y' hy' x' hx'
    rintro ⟨rfl, rfl⟩
    have hm := hmodx _ _ hx'
    rw [Nat.zero_mod, Nat.zero_add, Nat.mod_eq_of_lt (by omega)] at hm
    omega
  have hd01 : diamondPass hash2 r size chunk half (squarePass hash2 r size chunk half g)
      0 (size - 1) = squarePass hash2 r size chunk half g 0 (size - 1) := by
    refine dmPass_frame _ _ ?_
    intro y' hy' x' hx'
    rintro ⟨rfl, rfl⟩
    have hm := hmodx _ _ hx'
    rw [Nat.zero_mod, add_multiple_mod hdvd (by omega)] at hm
    omega
  have hd10 : diamondPass hash2 r size chunk half (squarePass hash2 r size chunk half g)
      (size - 1) 0 = squarePass hash2 r size chunk half g (size - 1) 0 := by
    refine dmPass_frame _ _ ?_
    intro y' hy' x' hx'
    rintro ⟨rfl, rfl⟩
    have hm := hmodx _ _ hx'
    rw [dvd_mod_zero hdvd, Nat.zero_add, Nat.mod_eq_of_lt (by omega)] at hm
    omega
  have hd11 : diamondPass hash2 r size chunk half (squarePass hash2 r size chunk half g)
      (size - 1) (size - 1) = squarePass hash2 r size chunk half g (size - 1) (size - 1) := by
    refine dmPass_frame _ _ ?_
    intro y' hy' x' hx'
    rintro ⟨rfl, rfl⟩
    have hm := hmodx _ _ hx'
    rw [dvd_mod_zero hdvd, add_multiple_mod hdvd (by omega)] at hm
    omega
  have h00mem : (0 : ℕ) ∈ stepRange (size - 1) chunk :=
    (mem_stepRange hcpos).mpr ⟨dvd_zero chunk, hpos⟩
  have hs00 : squarePass hash2 r size chunk half g 0 0 = g 0 0 + jitter hash2 r 0 0 :=
    (@sqPass_spec hash2 r chunk half 0 0 (size - 1) hch hh h00mem
      ((size - 1 + chunk - 1) / chunk) 0 g h00mem).2
  have hs01 : squarePass hash2 r size chunk half g 0 (size - 1) = g 0 (size - 1) := by
    refine sqPass_frame _ _ ?_
    intro y' hy' x' hx'
    have hylt : y' < size - 1 := ((mem_stepRange hcpos).mp hy').2
    exact ⟨by omega, by omega⟩
  have hs10 : squarePass hash2 r size chunk half g (size - 1) 0 = g (size - 1) 0 := by
    refine sqPass_frame _ _ ?_
    intro y' hy' x' hx'
    have hxlt : x' < size - 1 := ((mem_stepRange hcpos).mp hx').2
    exact ⟨by omega, by omega⟩
  have hs11 : squarePass hash2 r size chunk half g (size - 1) (size - 1)
      = g (size - 1) (size - 1) := by
    refine sqPass_frame _ _ ?_
    intro y' hy' x' hx'
    have hxlt : x' < size - 1 := ((mem_stepRange hcpos).mp hx').2
    have hxdvd : chunk ∣ x' := ((mem_stepRange hcpos).mp hx').1
    refine ⟨?_, by omega⟩
    rintro ⟨ha, hb⟩
    have hhalf : half = (size - 1) - x' := by omega
    have : chunk ∣ half := by
      rw [hhalf]
      exact Nat.dvd_sub' hdvd hxdvd
    have := Nat.le_of_dvd hh this
    omega
  exact ⟨by rw [hd00, hs00], by rw [hd01, hs01], by rw [hd10, hs10], by rw [hd11, hs11]⟩

theorem refineLoop_corners (hash2 : ℕ → ℕ → ℚ) (size : ℕ) :
    ∀ (m : ℕ) (rough : ℚ) (g : Grid), 2 ^ m ∣ size - 1 → 2 ^ m ≤ size - 1 →
      refineLoop hash2 size (2 ^ m) rough g 0 0
          = g 0 0 + cornerJitterSum hash2 (2 ^ m) rough
        ∧ refineLoop hash2 size (2 ^ m) rough g 0 (size - 1) = g 0 (size - 1)
        ∧ refineLoop hash2 size (2 ^ m) rough g (size - 1) 0 = g (size - 1) 0
        ∧ refineLoop hash2 size (2 ^ m) rough g (size - 1) (size - 1)
          = g (size - 1) (size - 1) := by
  intro m
  induction m with
  | zero =>
    intro rough g hdvd hle
    rw [show (2 : ℕ) ^ 0 = 1 from rfl]
    rw [refineLoop, if_neg (by omega)]
    have hcj0 : cornerJitterSum hash2 1 rough = 0 := by
      rw [cornerJitterSum, if_neg (by omega)]
    exact ⟨by rw [hcj0]; ring, rfl, rfl, rfl⟩
  | succ m ih =>
    intro rough g hdvd hle
    have hp : 0 < (2 : ℕ) ^ m := pow_pos (by norm_num) m
    have h2m1 : (1 : ℕ) < 2 ^ (m + 1) := by
      rw [pow_succ]
      omega
    have hhalf : 2 ^ (m + 1) / 2 = 2 ^ m := by
      rw [pow_succ]
      omega
    rw [refineLoop, if_pos h2m1, hhalf]
    have hlev := level_corners hash2 rough size (2 ^ (m + 1)) (2 ^ m) g
      (by rw [pow_succ]; ring) hp hdvd hle
    have hdvd' : (2 : ℕ) ^ m ∣ size - 1 :=
      dvd_trans (pow_dvd_pow 2 (by omega : m ≤ m + 1)) hdvd
    have hle' : (2 : ℕ) ^ m ≤ size - 1 :=
      le_trans (Nat.pow_le_pow_right (by norm_num) (by omega)) hle
    obtain ⟨i1, i2, i3, i4⟩ := ih (rough / 2)
      (diamondPass hash2 rough size (2 ^ (m + 1)) (2 ^ m)
        (squarePass hash2 rough size (2 ^ (m + 1)) (2 ^ m) g)) hdvd' hle'
    have hcj : cornerJitterSum hash2 (2 ^ (m + 1)) rough
        = jitter hash2 rough 0 0 + cornerJitterSum hash2 (2 ^ m) (rough / 2) := by
      rw [cornerJitterSum, if_pos h2m1, hhalf]
    refine ⟨?_, ?_, ?_, ?_⟩
    · rw [i1, hlev.1, hcj]
      ring
    · rw [i2, hlev.2.1]
    · rw [i3, hlev.2.2.1]
    · rw [i4, hlev.2.2.2]

theorem diamondWrites_not_lattice {size chunk half : ℕ} (hch : chunk = 2 * half)
    (hh : 0 < half) :
    ∀ x y, (x, y) ∈ diamondWrites size chunk half → ¬(chunk ∣ x ∧ chunk ∣ y) := by
  intro x y hmem
  rintro ⟨hdx, hdy⟩
  unfold diamondWrites at hmem
  rw [List.mem_flatMap] at hmem
  obtain ⟨y', hy', hx⟩ := hmem
  rw [List.mem_map] at hx
  obtain ⟨x', hx', heq⟩ := hx
  cases heq
  have hm := dm_row_mod (show 0 < chunk by omega) hx'
  rw [dvd_mod_zero hdx, add_multiple_mod hdy (by omega)] at hm
  omega

theorem refineLoop_eq_trace (hash2 : ℕ → ℕ → ℚ) (size : ℕ) :
    ∀ (chunk : ℕ) (rough : ℚ) (g : Grid),
      refineLoop hash2 size chunk rough g
        = (loopTrace chunk rough).foldl
            (fun g cr => diamondPass hash2 cr.2 size cr.1 (cr.1 / 2)
              (squarePass hash2 cr.2 size cr.1 (cr.1 / 2) g)) g := by
  intro chunk
  induction chunk using Nat.strong_induction_on with
  | _ chunk ih =>
    intro rough g
    rw [refineLoop, loopTrace]
    by_cases h : 1 < chunk
    · rw [if_pos h, if_pos h, List.foldl_cons]
      exact ih (chunk / 2) (by omega) (rough / 2) _
    · rw [if_neg h, if_neg h]
      rfl

theorem loopTrace_pow : ∀ (k : ℕ) (rough : ℚ), 1 ≤ k →
    loopTrace (2 ^ k) rough = (List.range k).map (fun i => (2 ^ (k - i), rough / 2 ^ i)) := by
  intro k
  induction k with
  | zero => intro rough h; exact absurd h (by omega)
  | succ k ih =>
    intro rough _
    have hp : 0 < (2 : ℕ) ^ k := pow_pos (by norm_num) k
    have h1 : (1 : ℕ) < 2 ^ (k + 1) := by rw [pow_succ]; omega
    have hhalf : 2 ^ (k + 1) / 2 = 2 ^ k := by rw [pow_succ]; omega
    rw [loopTrace, if_pos h1, hhalf]
    by_cases hk0 : k = 0
    · subst hk0
      rw [show (2 : ℕ) ^ 0 = 1 from rfl, loopTrace, if_neg (by omega)]
      norm_num [List.range_succ]
    · have hk1 : 1 ≤ k := by omega
      rw [ih (rough / 2) hk1, List.range_succ_eq_map, List.map_cons, List.map_map]
      congr 1
      · simp
      · refine List.map_congr_left ?_
        intro i _
        simp only [Function.comp_apply]
        have hexp : k + 1 - (i + 1) = k - i := by omega
        rw [hexp, Prod.mk.injEq]
        refine ⟨rfl, ?_⟩
        rw [div_div, pow_succ]
        ring_nf

theorem squarePass_writes_frame (hash2 : ℕ → ℕ → ℚ) (r : ℚ) (size chunk half : ℕ)
    (g : Grid) (p q : ℕ) (h : (p, q) ∉ squareWrites size chunk half) :
    squarePass hash2 r size chunk half g p q = g p q := by
  refine sqPass_frame _ _ ?_
  intro y' hy' x' hx'
  constructor
  · rintro ⟨hp1, hq1⟩
    refine h ?_
    rw [hp1, hq1]
    unfold squareWrites
    rw [List.mem_flatMap]
    refine ⟨y', hy', ?_⟩
    rw [List.mem_flatMap]
    exact ⟨x', hx', List.mem_cons_self _ _⟩
  · rintro ⟨hp1, hq1⟩
    refine h ?_
    rw [hp1, hq1]
    unfold squareWrites
    rw [List.mem_flatMap]
    refine ⟨y', hy', ?_⟩
    rw [List.mem_flatMap]
    exact ⟨x', hx', List.mem_cons_of_mem _ (List.mem_cons_self _ _)⟩

theorem diamondPass_writes_frame (hash2 : ℕ → ℕ → ℚ) (r : ℚ) (size chunk half : ℕ)
    (g : Grid) (p q : ℕ) (h : (p, q) ∉ diamondWrites size chunk half) :
    diamondPass hash2 r size chunk half g p q = g p q := by
  refine dmPass_frame _ _ ?_
  intro y' hy' x' hx'
  rintro ⟨hp1, hq1⟩
  refine h ?_
  rw [hp1, hq1]
  unfold diamondWrites
  rw [List.mem_flatMap]
  refine ⟨y', hy', ?_⟩
  rw [List.mem_map]
  exact ⟨x', hx', rfl⟩

theorem coverage_step (size k : ℕ) (hsz : size = 2 ^ k + 1) :
    ∀ (d m : ℕ), m + d = k → ∀ i j, i ≤ 2 ^ k → j ≤ 2 ^ k →
      2 ^ m ∣ i → 2 ^ m ∣ j →
      ((i = 0 ∨ i = 2 ^ k) ∧ (j = 0 ∨ j = 2 ^ k))
      ∨ ∃ mm, 1 ≤ mm ∧ mm ≤ k ∧
          ((i, j) ∈ squareWrites size (2 ^ mm) (2 ^ (mm - 1))
            ∨ (i, j) ∈ diamondWrites size (2 ^ mm) (2 ^ (mm - 1))) := by
  intro d
  induction d with
  | zero =>
    intro m hm i j hi hj hdi hdj
    have hmk : m = k := by omega
    subst hmk
    left
    have hp : 0 < (2 : ℕ) ^ m := pow_pos (by norm_num) m
    constructor
    · obtain ⟨c, rfl⟩ := hdi
      have hc : c ≤ 1 := by
        by_contra hc
        push_neg at hc
        have h2 : 2 ^ m * 2 ≤ 2 ^ m * c := Nat.mul_le_mul_left _ (by omega)
        omega
      rcases (show c = 0 ∨ c = 1 by omega) with rfl | rfl
      · left; ring
      · right; ring
    · obtain ⟨c, rfl⟩ := hdj
      have hc : c ≤ 1 := by
        by_contra hc
        push_neg at hc
        have h2 : 2 ^ m * 2 ≤ 2 ^ m * c := Nat.mul_le_mul_left _ (by omega)
        omega
      rcases (show c = 0 ∨ c = 1 by omega) with rfl | rfl
      · left; ring
      · right; ring
  | succ d ihd =>
    intro m hm i j hi hj hdi hdj
    have hp : 0 < (2 : ℕ) ^ m := pow_pos (by norm_num) m
    have hps : (2 : ℕ) ^ (m + 1) = 2 ^ m * 2 := pow_succ 2 m
    have hpk : 0 < (2 : ℕ) ^ k := pow_pos (by norm_num) k
    have hp1 : 0 < (2 : ℕ) ^ (m + 1) := pow_pos (by norm_num) (m + 1)
    have hisize : i < size := by omega
    have hjsize : j < size := by omega
    by_cases hdi2 : 2 ^ (m + 1) ∣ i <;> by_cases hdj2 : 2 ^ (m + 1) ∣ j
    · exact ihd (m + 1) (by omega) i j hi hj hdi2 hdj2
    · right
      refine ⟨m + 1, by omega, by omega, Or.inr ?_⟩
      simp only [Nat.add_sub_cancel]
      obtain ⟨cj, hcj⟩ := hdj
      have hcjodd : ∃ u, cj = 2 * u + 1 := by
        rcases Nat.even_or_odd cj with ⟨u, hu⟩ | ⟨u, hu⟩
        · exact absurd ⟨u, by rw [hcj, hu, hps]; ring⟩ hdj2
        · exact ⟨u, hu⟩
      obtain ⟨u, rfl⟩ := hcjodd
      unfold diamondWrites
      rw [List.mem_flatMap]
      refine ⟨j, ?_, ?_⟩
      · rw [mem_stepRange hp]
        exact ⟨⟨2 * u + 1, hcj⟩, hjsize⟩
      · rw [List.mem_map]
        refine ⟨i, ?_, rfl⟩
        have hphase : (j + 2 ^ m) % 2 ^ (m + 1) = 0 := by
          apply dvd_mod_zero
          exact ⟨u + 1, by rw [hcj, hps]; ring⟩
        rw [hphase, mem_stepRangeFrom hp1]
        exact ⟨Nat.zero_le i, by simpa using hdi2, hisize⟩
    · right
      refine ⟨m + 1, by omega, by omega, Or.inr ?_⟩
      simp only [Nat.add_sub_cancel]
      obtain ⟨ci, hci⟩ := hdi
      have hciodd : ∃ u, ci = 2 * u + 1 := by
        rcases Nat.even_or_odd ci with ⟨u, hu⟩ | ⟨u, hu⟩
        · exact absurd ⟨u, by rw [hci, hu, hps]; ring⟩ hdi2
        · exact ⟨u, hu⟩
      obtain ⟨u, rfl⟩ := hciodd
      have hkey : i = 2 ^ m + 2 ^ (m + 1) * u := by rw [hci, hps]; ring
      unfold diamondWrites
      rw [List.mem_flatMap]
      refine ⟨j, ?_, ?_⟩
      · rw [mem_stepRange hp]
        exact ⟨dvd_trans ⟨2, hps⟩ hdj2, hjsize⟩
      · rw [List.mem_map]
        refine ⟨i, ?_, rfl⟩
        have hphase : (j + 2 ^ m) % 2 ^ (m + 1) = 2 ^ m :=
          add_multiple_mod hdj2 (by omega)
        rw [hphase, mem_stepRangeFrom hp1]
        refine ⟨?_, ⟨u, ?_⟩, hisize⟩
        · rw [hkey]; exact Nat.le_add_right _ _
        · rw [hkey, Nat.add_sub_cancel_left]
    · right
      refine ⟨m + 1, by omega, by omega, Or.inl ?_⟩
      simp only [Nat.add_sub_cancel]
      obtain ⟨ci, hci⟩ := hdi
      obtain ⟨cj, hcj⟩ := hdj
      have hciodd : ∃ u, ci = 2 * u + 1 := by
        rcases Nat.even_or_odd ci with ⟨u, hu⟩ | ⟨u, hu⟩
        · exact absurd ⟨u, by rw [hci, hu, hps]; ring⟩ hdi2
        · exact ⟨u, hu⟩
      have hcjodd : ∃ u, cj = 2 * u + 1 := by
        rcases Nat.even_or_odd cj with ⟨u, hu⟩ | ⟨u, hu⟩
        · exact absurd ⟨u, by rw [hcj, hu, hps]; ring⟩ hdj2
        · exact ⟨u, hu⟩
      obtain ⟨u, rfl⟩ := hciodd
      obtain ⟨v, rfl⟩ := hcjodd
      have hkeyi : i = 2 ^ m + 2 ^ (m + 1) * u := by rw [hci, hps]; ring
      have hkeyj : j = 2 ^ m + 2 ^ (m + 1) * v := by rw [hcj, hps]; ring
      have hige : 2 ^ m ≤ i := by rw [hkeyi]; exact Nat.le_add_right _ _
      have hjge : 2 ^ m ≤ j := by rw [hkeyj]; exact Nat.le_add_right _ _
      unfold squareWrites
      rw [List.mem_flatMap]
      refine ⟨j - 2 ^ m, ?_, ?_⟩
      · rw [mem_stepRange hp1]
        refine ⟨⟨v, by rw [hkeyj, Nat.add_sub_cancel_left]⟩, by omega⟩
      · rw [List.mem_flatMap]
        refine ⟨i - 2 ^ m, ?_, ?_⟩
        · rw [mem_stepRange hp1]
          refine ⟨⟨u, by rw [hkeyi, Nat.add_sub_cancel_left]⟩, by omega⟩
        · have hie : i - 2 ^ m + 2 ^ m = i := by omega
          have hje : j - 2 ^ m + 2 ^ m = j := by omega
          rw [hie, hje]
          exact List.mem_cons_self _ _

/-- C7: for every valid request the refinement loop terminates after
exactly `k` iterations (the loop trace is finite and explicit), with
`chunk_size` and `roughness` both strictly halving at each iteration
(`chunk = 2^(k-i)`, `roughness / 2^i`), the loop body running exactly for
the chunk sizes greater than 1; the two passes only write cells on their
write lists, and every cell of the `N × N` grid is either a seeded corner
or written by a square or diamond pass at some refinement level. -/
theorem refinement_terminates_full_coverage (hash2 : ℕ → ℕ → ℚ) (rough : ℚ) (g : Grid)
    (size k : ℕ) (hk : 1 ≤ k) (hsz : size = 2 ^ k + 1) :
    refineLoop hash2 size (size - 1) rough g
        = (loopTrace (size - 1) rough).foldl
            (fun g cr => diamondPass hash2 cr.2 size cr.1 (cr.1 / 2)
              (squarePass hash2 cr.2 size cr.1 (cr.1 / 2) g)) g
      ∧ loopTrace (size - 1) rough
          = (List.range k).map (fun i => (2 ^ (k - i), rough / 2 ^ i))
      ∧ (∀ cr ∈ loopTrace (size - 1) rough, 1 < cr.1)
      ∧ (∀ (hash2' : ℕ → ℕ → ℚ) (r' : ℚ) (chunk half p q : ℕ) (g' : Grid),
          (p, q) ∉ squareWrites size chunk half →
          squarePass hash2' r' size chunk half g' p q = g' p q)
      ∧ (∀ (hash2' : ℕ → ℕ → ℚ) (r' : ℚ) (chunk half p q : ℕ) (g' : Grid),
          (p, q) ∉ diamondWrites size chunk half →
          diamondPass hash2' r' size chunk half g' p q = g' p q)
      ∧ ∀ i j, i < size → j < size →
          ((i = 0 ∨ i = size - 1) ∧ (j = 0 ∨ j = size - 1))
          ∨ ∃ m, 1 ≤ m ∧ m ≤ k ∧
              ((i, j) ∈ squareWrites size (2 ^ m) (2 ^ (m - 1))
                ∨ (i, j) ∈ diamondWrites size (2 ^ m) (2 ^ (m - 1))) := by
  have hpk : 0 < (2 : ℕ) ^ k := pow_pos (by norm_num) k
  have hsz1 : size - 1 = 2 ^ k := by omega
  refine ⟨refineLoop_eq_trace hash2 size (size - 1) rough g, ?_, ?_, ?_, ?_, ?_⟩
  · rw [hsz1]
    exact loopTrace_pow k rough hk
  · intro cr hcr
    rw [hsz1, loopTrace_pow k rough hk, List.mem_map] at hcr
    obtain ⟨i, hi, rfl⟩ := hcr
    rw [List.mem_range] at hi
    have h1 : 1 ≤ k - i := by omega
    calc (1 : ℕ) < 2 ^ 1 := by norm_num
    _ ≤ 2 ^ (k - i) := Nat.pow_le_pow_right (by norm_num) h1
  · intro hash2' r' chunk half p q g' hnot
    exact squarePass_writes_frame hash2' r' size chunk half g' p q hnot
  · intro hash2' r' chunk half p q g' hnot
    exact diamondPass_writes_frame hash2' r' size chunk half g' p q hnot
  · intro i j hi hj
    have hcov := coverage_step size k hsz k 0 (by omega) i j (by omega) (by omega)
      (by rw [pow_zero]; exact one_dvd i) (by rw [pow_zero]; exact one_dvd j)
    rcases hcov with ⟨hi', hj'⟩ | hrest
    · left
      exact ⟨by omega, by omega⟩
    · right
      exact hrest

/-- Witness for `refinement_terminates_full_coverage` at `image_size = 3`
(`k = 1`): the loop runs exactly once, at `chunk_size = 2`. -/
theorem refinement_terminates_full_coverage_witness :
    loopTrace (3 - 1) 2 = (List.range 1).map (fun i => (2 ^ (1 - i), (2 : ℚ) / 2 ^ i)) :=
  (refinement_terminates_full_coverage (fun _ _ => 0) 2 (fun _ _ => 0) 3 1 (by norm_num)
    (by norm_num)).2.1

/-- C10: the diamond pass never writes a lattice point of the current
level's square grid (a cell with both coordinates divisible by
`chunk_size`), so the only mutation any seeded corner ever receives is the
square pass's jitter addition to a chunk top-left; consequently, in the
final heightmap the three corners other than `[0][0]` hold exactly their
seeded hash values, while `[0][0]` holds its seeded value plus the jitter
accumulated at every refinement level. -/
theorem corners_frame_effect (digest : ℤ → ℤ → ℤ → ℕ) (seed px py : ℤ) (rough : ℚ)
    (size k : ℕ) (hk : 1 ≤ k) (hsz : size = 2 ^ k + 1) :
    (∀ chunk half x y, chunk = 2 * half → 0 < half →
        (x, y) ∈ diamondWrites size chunk half → ¬(chunk ∣ x ∧ chunk ∣ y))
      ∧ refineLoop (fun a b => hashFrac digest seed (a : ℤ) (b : ℤ)) size (size - 1) rough
          (seedCorners (hashFrac digest seed) px py size) 0 (size - 1)
        = hashFrac digest seed px (py + 1)
      ∧ refineLoop (fun a b => hashFrac digest seed (a : ℤ) (b : ℤ)) size (size - 1) rough
          (seedCorners (hashFrac digest seed) px py size) (size - 1) 0
        = hashFrac digest seed (px + 1) py
      ∧ refineLoop (fun a b => hashFrac digest seed (a : ℤ) (b : ℤ)) size (size - 1) rough
          (seedCorners (hashFrac digest seed) px py size) (size - 1) (size - 1)
        = hashFrac digest seed (px + 1) (py + 1)
      ∧ refineLoop (fun a b => hashFrac digest seed (a : ℤ) (b : ℤ)) size (size - 1) rough
          (seedCorners (hashFrac digest seed) px py size) 0 0
        = hashFrac digest seed px py
          + cornerJitterSum (fun a b => hashFrac digest seed (a : ℤ) (b : ℤ))
              (size - 1) rough := by
  have h2k : (2 : ℕ) ≤ 2 ^ k := by
    calc (2 : ℕ) = 2 ^ 1 := by norm_num
    _ ≤ 2 ^ k := Nat.pow_le_pow_right (by norm_num) hk
  have hsz1 : size - 1 = 2 ^ k := by omega
  have hs2 : 2 ≤ size := by omega
  obtain ⟨c1, c2, c3, c4⟩ := seedCorners_eval (hashFrac digest seed) px py size hs2
  rw [hsz1]
  obtain ⟨r1, r2, r3, r4⟩ := refineLoop_corners
    (fun a b => hashFrac digest seed (a : ℤ) (b : ℤ)) size k rough
    (seedCorners (hashFrac digest seed) px py size) (by rw [hsz1]) (by rw [hsz1])
  rw [hsz1] at r2 r3 r4 c2 c3 c4
  refine ⟨fun chunk half x y hch hh => diamondWrites_not_lattice hch hh x y,
    ?_, ?_, ?_, ?_⟩
  · rw [r2, c2]
  · rw [r3, c3]
  · rw [r4, c4]
  · rw [r1, c1]

/-- Witness for `corners_frame_effect` at `image_size = 3` (`k = 1`) with a
constant digest: the final `[0][0]` equals its seeded hash plus the
accumulated corner jitter. -/
theorem corners_frame_effect_witness :
    refineLoop (fun a b => hashFrac (fun _ _ _ => 0) 0 (a : ℤ) (b : ℤ)) 3 (3 - 1) 2
        (seedCorners (hashFrac (fun _ _ _ => 0) 0) 0 0 3) 0 0
      = hashFrac (fun _ _ _ => 0) 0 0 0
        + cornerJitterSum (fun a b => hashFrac (fun _ _ _ => 0) 0 (a : ℤ) (b : ℤ))
            (3 - 1) 2 :=
  (corners_frame_effect (fun _ _ _ => 0) 0 0 0 2 3 1 (by norm_num) (by norm_num)).2.2.2.2

end DiamondSquare
